import Mathlib

/-!
# Verification of `zip_chunker.py`

A shallow embedding of the core logic of `zip_chunker.py`: the ZIP overhead
model (`estimate_zip_overhead`), the per-file compression step
(`compress_one`), the collection of parallel worker results
(lines 93–101 of `compress_to_temp_parallel`), and the first-fit-decreasing
bin packer (`bin_pack_files`).

Modelling conventions:
* Python dicts become structures (`FileRec` for the result dict of
  `compress_one`, `Bin` for the bin dict `{'files': ..., 'size': ...}`).
* Byte strings become `List Nat` (one `Nat` per byte value).
* External library calls that the repository does not define
  (`zlib.compress`, `os.path.relpath`) are passed in as function parameters;
  `zlib.crc32` is modelled concretely by the standard CRC-32 fold.
* `sorted(files, key=lambda x: x['size'], reverse=True)` is Python's stable
  sort restricted to the key `size`, descending.  Any stable sort computes
  the same output list, so it is modelled by insertion sort with the
  relation `sizeGe` ("has at-least-as-large compressed size"), which is
  stable for equal keys.
* The mutable loop of `bin_pack_files` becomes a fold of `packOne` over the
  sorted record list; the inner first-fit scan becomes `tryInsert`, which
  returns `none` exactly when no existing bin accepts the record.
-/

namespace ZipChunker

/-- The per-file result dict returned by `compress_one` (lines 53–57),
flattened together with the `zipfile.ZipInfo` fields that `compress_one`
sets: `arcname` (the logical path used as the archive entry name),
`file_size` (uncompressed length), `size` (compressed length, the `'size'`
key used as the packing weight, equal to `info.compress_size`), and `crc`. -/
structure FileRec where
  arcname : String
  file_size : Nat
  size : Nat
  crc : Nat
  deriving Repr, DecidableEq

/-- One bin dict `{'files': [...], 'size': ...}` built by `bin_pack_files`
(lines 103–116). -/
structure Bin where
  files : List FileRec
  size : Nat
  deriving Repr, DecidableEq

/-- `estimate_zip_overhead` (lines 29–30):
`file_count * (30 + 46 + avg_name_len) + 22`, with `avg_name_len = 50` by
default. -/
def estimate_zip_overhead (file_count : Nat) (avg_name_len : Nat := 50) : Nat :=
  file_count * (30 + 46 + avg_name_len) + 22

/-- One bit-step of the standard CRC-32 computation (reflected polynomial
`0xEDB88320`). -/
def crc32Round (c : Nat) : Nat :=
  if c % 2 = 1 then (c / 2) ^^^ 0xEDB88320 else c / 2

/-- Fold one byte into a CRC-32 register: xor the byte into the low bits,
then run eight bit-steps. -/
def crc32Update (c b : Nat) : Nat :=
  crc32Round^[8] (c ^^^ b % 256)

/-- Modelled from the spec: `zlib.crc32` (line 39) is a library function
outside this repository; the spec fixes its meaning as "CRC-32 semantics"
over the uncompressed bytes, which is the standard CRC-32: initial register
`0xFFFFFFFF`, one `crc32Update` per byte, final complement. -/
def crc32 (data : List Nat) : Nat :=
  (data.foldl crc32Update 0xFFFFFFFF) ^^^ 0xFFFFFFFF

/-- `compress_one` (lines 32–57).  The deflate compressor (`zlib.compress`,
line 38) and the relative-path computation (`os.path.relpath`, line 41) are
external library calls, passed in as parameters; the checksum is
`zlib.crc32(data) & 0xffffffff` (line 39) computed on the *uncompressed*
`data`, before masking to 32 bits. -/
def compress_one (compress : List Nat → List Nat)
    (relpath : String → String → String)
    (file_path root_folder : String) (data : List Nat) : FileRec :=
  let compressed := compress data
  { arcname := relpath file_path root_folder
    file_size := data.length
    size := compressed.length
    crc := crc32 data &&& 0xFFFFFFFF }

/-- The sort key relation of line 105: `a` sorts no later than `b` when
`a`'s compressed size is at least `b`'s (descending by `size`). -/
def sizeGe (a b : FileRec) : Prop := b.size ≤ a.size

instance : DecidableRel sizeGe :=
  fun a b => inferInstanceAs (Decidable (b.size ≤ a.size))

instance : IsTotal FileRec sizeGe :=
  ⟨fun a b => Nat.le_total b.size a.size⟩

instance : IsTrans FileRec sizeGe :=
  ⟨fun _ _ _ h₁ h₂ => Nat.le_trans h₂ h₁⟩

/-- `sorted(files, key=lambda x: x['size'], reverse=True)` (line 105):
Python's sort is stable, so for the single key `size` descending it is
exactly the stable descending sort, modelled by insertion sort under
`sizeGe`. -/
def sortBySizeDesc (files : List FileRec) : List FileRec :=
  files.insertionSort sizeGe

/-- The acceptance test of line 109:
`b['size'] + file['size'] + estimated_overhead <= self.max_chunk_size`,
where `estimated_overhead = estimate_zip_overhead(len(b['files']) + 1)`
(line 108). -/
def accepts (maxChunk : Nat) (b : Bin) (file : FileRec) : Prop :=
  b.size + file.size + estimate_zip_overhead (b.files.length + 1) ≤ maxChunk

instance (maxChunk : Nat) (b : Bin) (file : FileRec) :
    Decidable (accepts maxChunk b file) :=
  inferInstanceAs (Decidable (_ ≤ _))

/-- Lines 110–111: `b['files'].append(file); b['size'] += file['size']`. -/
def addFile (b : Bin) (file : FileRec) : Bin :=
  { files := b.files ++ [file], size := b.size + file.size }

/-- The inner first-fit scan of lines 107–113: walk the bins in creation
order and place `file` into the first bin that `accepts` it; `none` when no
existing bin accepts it (`placed` stays `False`). -/
def tryInsert (maxChunk : Nat) (file : FileRec) : List Bin → Option (List Bin)
  | [] => none
  | b :: bs =>
    if accepts maxChunk b file then
      some (addFile b file :: bs)
    else
      (tryInsert maxChunk file bs).map (fun bs' => b :: bs')

/-- One iteration of the outer loop of lines 106–115: place `file` in the
first accepting bin, or append a fresh singleton bin
`{'files': [file], 'size': file['size']}` (line 115). -/
def packOne (maxChunk : Nat) (bins : List Bin) (file : FileRec) : List Bin :=
  match tryInsert maxChunk file bins with
  | some bins' => bins'
  | none => bins ++ [{ files := [file], size := file.size }]

/-- `bin_pack_files` (lines 103–116): fold `packOne` over the records in
descending size order, starting from no bins. -/
def bin_pack_files (maxChunk : Nat) (files : List FileRec) : List Bin :=
  (sortBySizeDesc files).foldl (packOne maxChunk) []

/-- One iteration of the result-collection loop of lines 93–99: a future
that returns a result dict is appended to `results`; a future that raises
is reported (the error print of line 99), counted here. -/
def collect_step (acc : List FileRec × Nat) (o : Except String FileRec) :
    List FileRec × Nat :=
  match o with
  | Except.ok r => (acc.1 ++ [r], acc.2)
  | Except.error _ => (acc.1, acc.2 + 1)

/-- The result collection of `compress_to_temp_parallel` (lines 93–101):
`as_completed` yields each worker's outcome in an arbitrary completion
order, so the model takes the list of outcomes (success or error) as given
and folds `collect_step` over it, returning the collected `results` list
together with the number of reported failures. -/
def collect_results (outcomes : List (Except String FileRec)) :
    List FileRec × Nat :=
  outcomes.foldl collect_step ([], 0)

/-- Whether a worker outcome is a failure (the future raised, line 98)
rather than a returned result dict. -/
def isFailure : Except String FileRec → Bool
  | Except.ok _ => false
  | Except.error _ => true

/-- Record fixtures for concrete evaluations. -/
def recA : FileRec := { arcname := "a", file_size := 9, size := 5, crc := 0 }

def recB : FileRec := { arcname := "b", file_size := 9, size := 5, crc := 0 }

def recC : FileRec := { arcname := "c", file_size := 12, size := 7, crc := 0 }

def recBig : FileRec :=
  { arcname := "big", file_size := 2000000, size := 1000000, crc := 0 }

lemma crc32Round_lt {c : Nat} (h : c < 2 ^ 32) : crc32Round c < 2 ^ 32 := by
  unfold crc32Round
  split
  · exact Nat.xor_lt_two_pow (lt_of_le_of_lt (Nat.div_le_self c 2) h) (by norm_num)
  · exact lt_of_le_of_lt (Nat.div_le_self c 2) h

lemma crc32Round_iter_lt (n : Nat) {c : Nat} (h : c < 2 ^ 32) :
    crc32Round^[n] c < 2 ^ 32 := by
  induction n generalizing c with
  | zero => simpa using h
  | succ k ih =>
    rw [Function.iterate_succ_apply]
    exact ih (crc32Round_lt h)

lemma crc32Update_lt {c : Nat} (b : Nat) (h : c < 2 ^ 32) :
    crc32Update c b < 2 ^ 32 := by
  unfold crc32Update
  refine crc32Round_iter_lt 8 (Nat.xor_lt_two_pow h ?_)
  exact lt_of_lt_of_le (Nat.mod_lt b (by norm_num)) (by norm_num)

lemma crc32_foldl_lt :
    ∀ (l : List Nat) (c : Nat), c < 2 ^ 32 → l.foldl crc32Update c < 2 ^ 32 := by
  intro l
  induction l with
  | nil => intro c h; simpa using h
  | cons b t ih =>
    intro c h
    rw [List.foldl_cons]
    exact ih _ (crc32Update_lt b h)

lemma crc32_lt (data : List Nat) : crc32 data < 2 ^ 32 :=
  Nat.xor_lt_two_pow (crc32_foldl_lt data _ (by norm_num)) (by norm_num)

lemma crc32_and_mask (data : List Nat) :
    crc32 data &&& 0xFFFFFFFF = crc32 data := by
  have h : (0xFFFFFFFF : Nat) = 2 ^ 32 - 1 := by norm_num
  rw [h, Nat.and_pow_two_sub_one_eq_mod, Nat.mod_eq_of_lt (crc32_lt data)]

/-- C5: for every entry count `n` and average name length `a`,
`estimate_zip_overhead n a = n * (30 + 46 + a) + 22`, and with the default
average name length (50) it is `n * 126 + 22`. -/
theorem estimate_zip_overhead_spec (n a : Nat) :
    estimate_zip_overhead n a = n * (30 + 46 + a) + 22 ∧
    estimate_zip_overhead n = n * 126 + 22 :=
  ⟨rfl, by norm_num [estimate_zip_overhead]⟩

/-- C8: the checksum stored by `compress_one` is the CRC-32 of the
uncompressed content `data`, lies in `[0, 2^32)`, and does not depend on the
compression function (so it is not a checksum of the compressed payload). -/
theorem compress_one_checksum_uncompressed
    (c₁ c₂ : List Nat → List Nat) (rp : String → String → String)
    (fp root : String) (data : List Nat) :
    (compress_one c₁ rp fp root data).crc = crc32 data ∧
    (compress_one c₁ rp fp root data).crc < 2 ^ 32 ∧
    (compress_one c₁ rp fp root data).crc = (compress_one c₂ rp fp root data).crc := by
  refine ⟨?_, ?_, rfl⟩
  · show crc32 data &&& 0xFFFFFFFF = crc32 data
    exact crc32_and_mask data
  · show crc32 data &&& 0xFFFFFFFF < 2 ^ 32
    rw [crc32_and_mask data]
    exact crc32_lt data

lemma tryInsert_eq_none_iff {maxChunk : Nat} {file : FileRec} :
    ∀ {bins : List Bin},
      tryInsert maxChunk file bins = none ↔ ∀ b ∈ bins, ¬ accepts maxChunk b file := by
  intro bins
  induction bins with
  | nil => simp [tryInsert]
  | cons c cs ih =>
    simp only [tryInsert]
    split
    · simp_all
    · simpa [Option.map_eq_none, ih] using fun _ => by assumption

/-- C6: when `file` fits in no existing bin (in particular when it is too
large even on its own), `packOne` appends a fresh bin holding exactly that
record; packing never fails and never splits the record. -/
theorem packOne_unplaced_new_bin (maxChunk : Nat) (bins : List Bin) (file : FileRec)
    (h : ∀ b ∈ bins,
      ¬ (b.size + file.size + estimate_zip_overhead (b.files.length + 1) ≤ maxChunk)) :
    packOne maxChunk bins file = bins ++ [{ files := [file], size := file.size }] := by
  have hnone : tryInsert maxChunk file bins = none := tryInsert_eq_none_iff.mpr h
  simp [packOne, hnone]

/-- Witness for C6: with a 10-byte limit, an (oversized) 1000000-byte record
that fits in no existing bin is still placed, alone, in a fresh final bin. -/
theorem packOne_unplaced_new_bin_witness :
    packOne 10 [{ files := [recA], size := 5 }] recBig =
      [{ files := [recA], size := 5 }, { files := [recBig], size := 1000000 }] :=
  packOne_unplaced_new_bin 10 [{ files := [recA], size := 5 }] recBig (by decide)

/-- C2: a record is added to an existing bin only when that bin's payload
total, plus the record's compressed size, plus the overhead estimate at the
prospective member count, stays within `maxChunk`; moreover the accepting
bin is the first such bin and is updated by `addFile`. -/
theorem accept_requires_capacity (maxChunk : Nat) (file : FileRec) :
    ∀ (bins bins' : List Bin), tryInsert maxChunk file bins = some bins' →
      ∃ i, ∃ hi : i < bins.length,
        (bins.get ⟨i, hi⟩).size + file.size +
            estimate_zip_overhead ((bins.get ⟨i, hi⟩).files.length + 1) ≤ maxChunk ∧
        bins' = bins.set i (addFile (bins.get ⟨i, hi⟩) file) ∧
        ∀ j (hj : j < i),
          ¬ ((bins.get ⟨j, Nat.lt_trans hj hi⟩).size + file.size +
              estimate_zip_overhead
                ((bins.get ⟨j, Nat.lt_trans hj hi⟩).files.length + 1) ≤ maxChunk) := by
  intro bins
  induction bins with
  | nil => intro bins' h; simp [tryInsert] at h
  | cons c cs ih =>
    intro bins' h
    simp only [tryInsert] at h
    split at h
    · refine ⟨0, by simp, ?_, ?_, ?_⟩
      · assumption
      · simpa using h.symm
      · intro j hj; omega
    · rename_i hacc
      rw [Option.map_eq_some'] at h
      obtain ⟨bs', he, rfl⟩ := h
      obtain ⟨i, hi, hcond, hset, hfirst⟩ := ih bs' he
      refine ⟨i + 1, by simpa using Nat.succ_lt_succ hi, ?_, ?_, ?_⟩
      · simpa using hcond
      · simpa using hset
      · intro j hj
        match j, hj with
        | 0, _ =>
          simp only [accepts] at hacc
          exact hacc
        | k + 1, hk => simpa using hfirst k (Nat.lt_of_succ_lt_succ hk)

/-- Witness for C2: with limit 1000, inserting `recA` into the bin list
`[{files := [recC], size := 7}]` succeeds, and the theorem exhibits the
accepting index with its capacity check. -/
theorem accept_requires_capacity_witness :
    ∃ i, ∃ hi : i < ([{ files := [recC], size := 7 }] : List Bin).length,
      ((([{ files := [recC], size := 7 }] : List Bin)).get ⟨i, hi⟩).size + recA.size +
          estimate_zip_overhead
            (((([{ files := [recC], size := 7 }] : List Bin)).get ⟨i, hi⟩).files.length + 1) ≤
          1000 ∧
      [{ files := [recC, recA], size := 12 }] =
        ([{ files := [recC], size := 7 }] : List Bin).set i
          (addFile ((([{ files := [recC], size := 7 }] : List Bin)).get ⟨i, hi⟩) recA) ∧
      ∀ j (hj : j < i),
        ¬ (((([{ files := [recC], size := 7 }] : List Bin)).get
              ⟨j, Nat.lt_trans hj hi⟩).size + recA.size +
            estimate_zip_overhead
              (((([{ files := [recC], size := 7 }] : List Bin)).get
                  ⟨j, Nat.lt_trans hj hi⟩).files.length + 1) ≤ 1000) :=
  accept_requires_capacity 1000 recA [{ files := [recC], size := 7 }]
    [{ files := [recC, recA], size := 12 }] (by decide)

lemma tryInsert_flatten {maxChunk : Nat} {file : FileRec} :
    ∀ {bins bins' : List Bin}, tryInsert maxChunk file bins = some bins' →
      ((bins'.map Bin.files).flatten).Perm ((bins.map Bin.files).flatten ++ [file]) := by
  intro bins
  induction bins with
  | nil => intro bins' h; simp [tryInsert] at h
  | cons c cs ih =>
    intro bins' h
    simp only [tryInsert] at h
    split at h
    · obtain rfl : addFile c file :: cs = bins' := by simpa using h
      simp only [List.map_cons, List.flatten_cons, addFile, List.append_assoc]
      exact List.Perm.append_left c.files List.perm_append_comm
    · rw [Option.map_eq_some'] at h
      obtain ⟨bs', he, rfl⟩ := h
      simp only [List.map_cons, List.flatten_cons, List.append_assoc]
      exact List.Perm.append_left c.files (ih he)

lemma packOne_flatten (maxChunk : Nat) (bins : List Bin) (file : FileRec) :
    (((packOne maxChunk bins file).map Bin.files).flatten).Perm
      ((bins.map Bin.files).flatten ++ [file]) := by
  cases h : tryInsert maxChunk file bins with
  | some bins' =>
    have := tryInsert_flatten h
    simpa [packOne, h] using this
  | none => simp [packOne, h]

lemma foldl_packOne_flatten (maxChunk : Nat) :
    ∀ (l : List FileRec) (bins : List Bin),
      (((l.foldl (packOne maxChunk) bins).map Bin.files).flatten).Perm
        ((bins.map Bin.files).flatten ++ l) := by
  intro l
  induction l with
  | nil => intro bins; simp
  | cons r t ih =>
    intro bins
    rw [List.foldl_cons]
    refine (ih (packOne maxChunk bins r)).trans ?_
    have h := (packOne_flatten maxChunk bins r).append_right t
    simpa using h

/-- C1: the output of `bin_pack_files` is a partition of its input: the
concatenation of all bins' member lists is a permutation of the input
records, so as a multiset it equals the input multiset (no record dropped,
none duplicated). -/
theorem bin_pack_files_partition (maxChunk : Nat) (files : List FileRec) :
    (((bin_pack_files maxChunk files).map Bin.files).flatten).Perm files ∧
    (↑((bin_pack_files maxChunk files).map Bin.files).flatten : Multiset FileRec) =
      ↑files := by
  have h := foldl_packOne_flatten maxChunk (sortBySizeDesc files) []
  have hp : (((bin_pack_files maxChunk files).map Bin.files).flatten).Perm files := by
    refine List.Perm.trans (by simpa using h) ?_
    exact List.perm_insertionSort sizeGe files
  exact ⟨hp, Multiset.coe_eq_coe.mpr hp⟩

lemma tryInsert_mem_pres {maxChunk : Nat} {file : FileRec} {Q : Bin → Prop}
    (hadd : ∀ b, Q b → accepts maxChunk b file → Q (addFile b file)) :
    ∀ {bins bins' : List Bin}, tryInsert maxChunk file bins = some bins' →
      (∀ b ∈ bins, Q b) → ∀ b ∈ bins', Q b := by
  intro bins
  induction bins with
  | nil => intro bins' h; simp [tryInsert] at h
  | cons c cs ih =>
    intro bins' h hall
    simp only [tryInsert] at h
    split at h
    · rename_i hacc
      obtain rfl : addFile c file :: cs = bins' := by simpa using h
      intro b hb
      rcases List.mem_cons.mp hb with rfl | hb
      · exact hadd c (hall c (List.mem_cons_self c cs)) hacc
      · exact hall b (List.mem_cons_of_mem c hb)
    · rw [Option.map_eq_some'] at h
      obtain ⟨bs', he, rfl⟩ := h
      intro b hb
      rcases List.mem_cons.mp hb with rfl | hb
      · exact hall b (List.mem_cons_self b cs)
      · exact ih he (fun x hx => hall x (List.mem_cons_of_mem c hx)) b hb

lemma packOne_mem_pres {maxChunk : Nat} {file : FileRec} {Q : Bin → Prop}
    (hadd : ∀ b, Q b → accepts maxChunk b file → Q (addFile b file))
    (hnew : Q { files := [file], size := file.size }) :
    ∀ {bins : List Bin}, (∀ b ∈ bins, Q b) →
      ∀ b ∈ packOne maxChunk bins file, Q b := by
  intro bins hall b hb
  unfold packOne at hb
  cases h : tryInsert maxChunk file bins with
  | some bins' =>
    rw [h] at hb
    exact tryInsert_mem_pres hadd h hall b hb
  | none =>
    rw [h] at hb
    rcases List.mem_append.mp hb with hb | hb
    · exact hall b hb
    · rcases List.mem_singleton.mp hb with rfl
      exact hnew

lemma foldl_packOne_pres {maxChunk : Nat} {Q : Bin → Prop}
    (hadd : ∀ b file, Q b → accepts maxChunk b file → Q (addFile b file))
    (hnew : ∀ file : FileRec, Q { files := [file], size := file.size }) :
    ∀ (l : List FileRec) {bins : List Bin}, (∀ b ∈ bins, Q b) →
      ∀ b ∈ l.foldl (packOne maxChunk) bins, Q b := by
  intro l
  induction l with
  | nil => intro bins hall; simpa using hall
  | cons r t ih =>
    intro bins hall
    rw [List.foldl_cons]
    exact ih (packOne_mem_pres (fun b => hadd b r) (hnew r) hall)

/-- C9: every bin recorded by `bin_pack_files` has `size` equal to the sum
of its members' compressed sizes, and this equality is preserved by every
single placement step (`packOne`), whether the record joins an existing bin
or opens a new one. -/
theorem bin_pack_files_size_sum (maxChunk : Nat) (files : List FileRec) :
    (∀ b ∈ bin_pack_files maxChunk files,
      b.size = (b.files.map FileRec.size).sum) ∧
    (∀ (bins : List Bin) (file : FileRec),
      (∀ b ∈ bins, b.size = (b.files.map FileRec.size).sum) →
      ∀ b ∈ packOne maxChunk bins file,
        b.size = (b.files.map FileRec.size).sum) := by
  have hadd : ∀ (b : Bin) (file : FileRec),
      b.size = (b.files.map FileRec.size).sum → accepts maxChunk b file →
      (addFile b file).size = ((addFile b file).files.map FileRec.size).sum := by
    intro b file hQ _
    simp [addFile, hQ]
  have hnew : ∀ file : FileRec,
      ({ files := [file], size := file.size } : Bin).size =
        (({ files := [file], size := file.size } : Bin).files.map FileRec.size).sum := by
    intro file; simp
  constructor
  · exact foldl_packOne_pres hadd hnew (sortBySizeDesc files) (by simp)
  · intro bins file hall
    exact packOne_mem_pres (fun b => hadd b file) (hnew file) hall

/-- Witness for C9: in the one-bin output of packing the single record
`recA` under limit 0, the bin's recorded size equals the sum of its
members' sizes. -/
theorem bin_pack_files_size_sum_witness :
    ({ files := [recA], size := 5 } : Bin).size =
      (({ files := [recA], size := 5 } : Bin).files.map FileRec.size).sum :=
  (bin_pack_files_size_sum 0 [recA]).1 { files := [recA], size := 5 } (by decide)

lemma foldl_packOne_desc (maxChunk : Nat) :
    ∀ (l : List FileRec) (bins : List Bin),
      l.Pairwise sizeGe →
      (∀ b ∈ bins, b.files ≠ [] ∧ b.files.Pairwise sizeGe ∧
        ∀ m ∈ b.files, ∀ x ∈ l, x.size ≤ m.size) →
      ∀ b ∈ l.foldl (packOne maxChunk) bins,
        b.files ≠ [] ∧ b.files.Pairwise sizeGe := by
  intro l
  induction l with
  | nil =>
    intro bins _ hb b hmem
    rw [List.foldl_nil] at hmem
    exact ⟨(hb b hmem).1, (hb b hmem).2.1⟩
  | cons r t ih =>
    intro bins hpw hb
    rw [List.foldl_cons]
    have hpwt : t.Pairwise sizeGe := (List.pairwise_cons.mp hpw).2
    have hrt : ∀ x ∈ t, x.size ≤ r.size :=
      fun x hx => (List.pairwise_cons.mp hpw).1 x hx
    have hadd : ∀ b : Bin,
        (b.files ≠ [] ∧ b.files.Pairwise sizeGe ∧
          ∀ m ∈ b.files, ∀ x ∈ r :: t, x.size ≤ m.size) →
        accepts maxChunk b r →
        ((addFile b r).files ≠ [] ∧ (addFile b r).files.Pairwise sizeGe ∧
          ∀ m ∈ (addFile b r).files, ∀ x ∈ r :: t, x.size ≤ m.size) := by
      intro b ⟨_, hpair, hmono⟩ _
      refine ⟨by simp [addFile], ?_, ?_⟩
      · rw [addFile, List.pairwise_append]
        refine ⟨hpair, List.pairwise_singleton _ _, ?_⟩
        intro m hm y hy
        rcases List.mem_singleton.mp hy with rfl
        exact hmono m hm y (List.mem_cons_self y t)
      · intro m hm x hx
        rcases List.mem_append.mp hm with hm | hm
        · exact hmono m hm x hx
        · rcases List.mem_singleton.mp hm with rfl
          rcases List.mem_cons.mp hx with rfl | hx
          · exact Nat.le_refl _
          · exact hrt x hx
    have hnew : (({ files := [r], size := r.size } : Bin)).files ≠ [] ∧
        (({ files := [r], size := r.size } : Bin)).files.Pairwise sizeGe ∧
        ∀ m ∈ (({ files := [r], size := r.size } : Bin)).files,
          ∀ x ∈ r :: t, x.size ≤ m.size := by
      refine ⟨by simp, List.pairwise_singleton _ _, ?_⟩
      intro m hm x hx
      rcases List.mem_singleton.mp hm with rfl
      rcases List.mem_cons.mp hx with rfl | hx
      · exact Nat.le_refl _
      · exact hrt x hx
    have hQ := packOne_mem_pres hadd hnew hb
    refine ih (packOne maxChunk bins r) hpwt ?_
    intro b hmem
    obtain ⟨h1, h2, h3⟩ := hQ b hmem
    exact ⟨h1, h2, fun m hm x hx => h3 m hm x (List.mem_cons_of_mem r hx)⟩

/-- C10: every bin produced by `bin_pack_files` is non-empty, and its
members are in non-increasing order of compressed size (insertion order
inherits the global descending processing order). -/
theorem bin_pack_files_members_nonempty_desc (maxChunk : Nat) (files : List FileRec) :
    ∀ b ∈ bin_pack_files maxChunk files,
      b.files ≠ [] ∧ b.files.Pairwise (fun x y => y.size ≤ x.size) := by
  intro b hb
  refine foldl_packOne_desc maxChunk (sortBySizeDesc files) [] ?_ (by simp) b hb
  exact List.sorted_insertionSort sizeGe files

/-- Witness for C10: packing `[recA, recC]` (sizes 5 and 7) under limit
1000 yields the single bin `[recC, recA]`, non-empty and size-descending. -/
theorem bin_pack_files_members_nonempty_desc_witness :
    ({ files := [recC, recA], size := 12 } : Bin).files ≠ [] ∧
    ({ files := [recC, recA], size := 12 } : Bin).files.Pairwise
      (fun x y => y.size ≤ x.size) :=
  bin_pack_files_members_nonempty_desc 1000 [recA, recC]
    { files := [recC, recA], size := 12 } (by decide)

lemma sortBySizeDesc_sorted (files : List FileRec) :
    (sortBySizeDesc files).Pairwise sizeGe :=
  List.sorted_insertionSort sizeGe files

lemma eq_of_sorted_of_perm_of_nodup_sizes :
    ∀ {l₁ l₂ : List FileRec},
      l₁.Pairwise sizeGe → l₂.Pairwise sizeGe → l₁.Perm l₂ →
      (l₁.map FileRec.size).Nodup → l₁ = l₂ := by
  intro l₁
  induction l₁ with
  | nil =>
    intro l₂ _ _ hp _
    exact (hp.symm.eq_nil).symm
  | cons a t₁ ih =>
    intro l₂ hs₁ hs₂ hp hnd
    cases l₂ with
    | nil =>
      have := hp.eq_nil
      simp at this
    | cons b t₂ =>
      have hab : b = a := by
        by_contra hne
        have hbmem : b ∈ a :: t₁ := hp.mem_iff.mpr (List.mem_cons_self b t₂)
        have hbt : b ∈ t₁ := by
          rcases List.mem_cons.mp hbmem with h | h
          · exact absurd h hne
          · exact h
        have hamem : a ∈ b :: t₂ := hp.mem_iff.mp (List.mem_cons_self a t₁)
        have hba : b.size ≤ a.size := (List.pairwise_cons.mp hs₁).1 b hbt
        have hab' : a.size ≤ b.size := by
          rcases List.mem_cons.mp hamem with h | h
          · exact absurd h.symm hne
          · exact (List.pairwise_cons.mp hs₂).1 a h
        have heq : a.size = b.size := Nat.le_antisymm hab' hba
        have hnd' : (∀ x ∈ t₁, ¬ x.size = a.size) ∧ (t₁.map FileRec.size).Nodup := by
          simpa using hnd
        exact hnd'.1 b hbt heq.symm
      subst hab
      have ht : t₁.Perm t₂ := hp.cons_inv
      have hnd' : (∀ x ∈ t₁, ¬ x.size = b.size) ∧ (t₁.map FileRec.size).Nodup := by
        simpa using hnd
      rw [ih (List.pairwise_cons.mp hs₁).2 (List.pairwise_cons.mp hs₂).2 ht hnd'.2]

/-- Counterexample to C3 as stated: two records of equal compressed size 5
and distinct logical paths, packed under limit 0 (each record opens its own
bin).  The two input orders are permutations of each other, yet the bundle
partitions differ: bin 1 holds path `"b"` in one run and path `"a"` in the
other, because line 105 sorts by size only and Python's sort is stable. -/
theorem bin_pack_files_perm_sensitive :
    ([recB, recA] : List FileRec).Perm [recA, recB] ∧
    bin_pack_files 0 [recB, recA] ≠ bin_pack_files 0 [recA, recB] :=
  ⟨by decide, by decide⟩

/-- C3 (amended): when no two records share a compressed size, the bundle
partition produced by `bin_pack_files` is the same for any two permutations
of the input collection. -/
theorem bin_pack_files_deterministic (maxChunk : Nat) (l₁ l₂ : List FileRec)
    (hp : l₁.Perm l₂) (hnd : (l₁.map FileRec.size).Nodup) :
    bin_pack_files maxChunk l₁ = bin_pack_files maxChunk l₂ := by
  have hsort : sortBySizeDesc l₁ = sortBySizeDesc l₂ := by
    refine eq_of_sorted_of_perm_of_nodup_sizes
      (sortBySizeDesc_sorted l₁) (sortBySizeDesc_sorted l₂) ?_ ?_
    · exact (List.perm_insertionSort sizeGe l₁).trans
        (hp.trans (List.perm_insertionSort sizeGe l₂).symm)
    · exact ((List.perm_insertionSort sizeGe l₁).map FileRec.size).nodup_iff.mpr hnd
  unfold bin_pack_files
  rw [hsort]

/-- Witness for C3 (amended): the records of sizes 5 and 7 have pairwise
distinct sizes, and both input orders pack to the same partition. -/
theorem bin_pack_files_deterministic_witness :
    bin_pack_files 1000 [recA, recC] = bin_pack_files 1000 [recC, recA] :=
  bin_pack_files_deterministic 1000 [recA, recC] [recC, recA] (by decide) (by decide)

/-- Counterexample to C4 as stated: line 105 sorts by `size` only, with no
tie-break on the logical path.  For the equal-size records with paths `"b"`
then `"a"` in input order, the processed sequence keeps `"b"` first, so it
is not ascending in logical path among equal sizes. -/
theorem sortBySizeDesc_no_path_tiebreak :
    ¬ (sortBySizeDesc [recB, recA]).Pairwise
      (fun x y => y.size < x.size ∨ (x.size = y.size ∧ x.arcname < y.arcname)) := by
  intro h
  have hs : sortBySizeDesc [recB, recA] = [recB, recA] := by rfl
  rw [hs] at h
  have hrel := (List.pairwise_cons.mp h).1 recA (List.mem_cons_self recA [])
  rcases hrel with h1 | h2
  · exact absurd h1 (by decide)
  · have hlt : ("b" : String) < "a" := by simpa [recA, recB] using h2.2
    rw [String.lt_iff_toList_lt] at hlt
    exact absurd hlt (by decide)

lemma orderedInsert_pair_sublist {c b : FileRec} (hbc : b.size ≤ c.size) :
    ∀ {l : List FileRec}, b ∈ l →
      [c, b].Sublist (List.orderedInsert sizeGe c l) := by
  intro l
  induction l with
  | nil => intro h; simp at h
  | cons x t ih =>
    intro hmem
    simp only [List.orderedInsert]
    split
    · exact List.Sublist.cons₂ c (List.singleton_sublist.mpr hmem)
    · rename_i hcx
      rcases List.mem_cons.mp hmem with rfl | hbt
      · exact absurd hbc hcx
      · exact List.Sublist.cons x (ih hbt)

lemma insertionSort_pair_sublist :
    ∀ {l : List FileRec} {a b : FileRec}, a.size = b.size →
      [a, b].Sublist l → [a, b].Sublist (List.insertionSort sizeGe l) := by
  intro l
  induction l with
  | nil => intro a b _ h; simp at h
  | cons x t ih =>
    intro a b hsz hsub
    simp only [List.insertionSort]
    cases hsub with
    | cons _ h =>
      exact (ih hsz h).trans
        (List.sublist_orderedInsert x (List.insertionSort sizeGe t))
    | cons₂ _ h =>
      have hbmem : b ∈ List.insertionSort sizeGe t :=
        (List.perm_insertionSort sizeGe t).mem_iff.mpr (List.singleton_sublist.mp h)
      exact orderedInsert_pair_sublist (Nat.le_of_eq hsz.symm) hbmem

/-- C4 (amended): the packer processes the records sorted by compressed
size descending with a stable sort: the processed sequence is a permutation
of the input, non-increasing in `size`, and any two equal-size records keep
their relative input order (no logical-path tie-break is applied). -/
theorem sortBySizeDesc_desc_stable (files : List FileRec) :
    (sortBySizeDesc files).Perm files ∧
    (sortBySizeDesc files).Pairwise (fun x y => y.size ≤ x.size) ∧
    ∀ a b : FileRec, a.size = b.size → [a, b].Sublist files →
      [a, b].Sublist (sortBySizeDesc files) := by
  refine ⟨List.perm_insertionSort sizeGe files, sortBySizeDesc_sorted files, ?_⟩
  intro a b hsz hsub
  exact insertionSort_pair_sublist hsz hsub

/-- Witness for C4 (amended): the equal-size records `recB`, `recA` appear
in that input order and keep it in the processed sequence. -/
theorem sortBySizeDesc_desc_stable_witness :
    ([recB, recA] : List FileRec).Sublist (sortBySizeDesc [recC, recB, recA]) :=
  (sortBySizeDesc_desc_stable [recC, recB, recA]).2.2 recB recA (by decide) (by decide)

lemma collect_results_aux :
    ∀ (outcomes : List (Except String FileRec)) (acc : List FileRec) (k : Nat),
      (outcomes.foldl collect_step (acc, k)).1 =
        acc ++ outcomes.filterMap Except.toOption ∧
      (outcomes.foldl collect_step (acc, k)).2 =
        k + outcomes.countP isFailure := by
  intro outcomes
  induction outcomes with
  | nil => intro acc k; simp
  | cons o t ih =>
    intro acc k
    cases o with
    | ok r =>
      rw [List.foldl_cons]
      obtain ⟨h1, h2⟩ := ih (acc ++ [r]) k
      constructor
      · simp [collect_step, h1, List.filterMap_cons, Except.toOption]
      · simp [collect_step, h2, List.countP_cons, isFailure]
    | error e =>
      rw [List.foldl_cons]
      obtain ⟨h1, h2⟩ := ih acc (k + 1)
      constructor
      · simp [collect_step, h1, List.filterMap_cons, Except.toOption]
      · simp only [collect_step, h2, List.countP_cons, isFailure]
        simp
        omega

lemma filterMap_toOption_length :
    ∀ (outcomes : List (Except String FileRec)),
      (outcomes.filterMap Except.toOption).length + outcomes.countP isFailure =
        outcomes.length := by
  intro outcomes
  induction outcomes with
  | nil => simp
  | cons o t ih =>
    cases o <;>
      simp [List.filterMap_cons, Except.toOption, List.countP_cons, isFailure] <;>
      omega

/-- C7: a single failing worker among `n + 1` submitted tasks is isolated:
the collection loop gathers exactly the `n` successful records (in
completion order) and reports exactly one failure, with no run-wide abort. -/
theorem collect_results_isolation (outcomes : List (Except String FileRec)) (n : Nat)
    (hlen : outcomes.length = n + 1)
    (herr : outcomes.countP isFailure = 1) :
    (collect_results outcomes).1.length = n ∧
    (collect_results outcomes).2 = 1 ∧
    (collect_results outcomes).1 = outcomes.filterMap Except.toOption := by
  obtain ⟨h1, h2⟩ := collect_results_aux outcomes [] 0
  have hfst : (collect_results outcomes).1 = outcomes.filterMap Except.toOption := by
    simpa [collect_results] using h1
  refine ⟨?_, by simp [collect_results, h2, herr], hfst⟩
  rw [hfst]
  have := filterMap_toOption_length outcomes
  omega

/-- Witness for C7: two successes and one failure collect into exactly the
two successful records with one reported failure. -/
theorem collect_results_isolation_witness :
    (collect_results [Except.ok recA, Except.error "boom", Except.ok recB]).1.length = 2 ∧
    (collect_results [Except.ok recA, Except.error "boom", Except.ok recB]).2 = 1 ∧
    (collect_results [Except.ok recA, Except.error "boom", Except.ok recB]).1 =
      ([Except.ok recA, Except.error "boom", Except.ok recB]).filterMap Except.toOption :=
  collect_results_isolation [Except.ok recA, Except.error "boom", Except.ok recB] 2
    (by rfl) (by rfl)

end ZipChunker
